import Mathlib

/-!
Verification of the tabular reconciliation and anomaly-detection engine of the
"Excel Operations App" repository.  Cell values are modelled by an inductive
`Value` type (numeric cells as rationals, text cells as strings, and a distinct
missing/NaN marker); tables are lists of rows.  Each service's algorithmic core
is embedded as an executable Lean function mirroring the Python source:

* `_service_two/service_logic.py`  (`compare`): row alignment on a key column
  and the cell-by-cell diff loop;
* `_service_one/service_logic.py`  (`analyse`): the Similarity % formula of the
  forecast-comparison pivot;
* `_service_eight/service_logic.py` (`service_merge`): the multi-file outer
  merge with per-file key validation;
* `_service_three/service_logic.py` (`flag_anomalies`): the sliding-window
  anomaly scan with consecutive-candidate confirmation.
-/

namespace ExcelOps

/-- Cell value of a table: numeric (floats modelled as rationals), text, or
the missing/NaN marker. -/
inductive Value where
  | missing
  | str (s : String)
  | num (q : ℚ)
deriving DecidableEq, Repr

instance : Inhabited Value := ⟨Value.missing⟩

/-- pandas `pd.isna` on a single cell. -/
def Value.isna : Value → Bool
  | .missing => true
  | _ => false

/-- Python `!=` on cell values: NaN compares unequal to everything, itself
included; otherwise structural inequality. -/
def pyNe (v w : Value) : Bool :=
  if v.isna || w.isna then true else v != w

/-- Python `str()` cast of a cell value; a float NaN prints as `"nan"`. -/
def pyStr : Value → String
  | .missing => "nan"
  | .str s => s
  | .num q => toString q

/-- Rows are lists of cell values, indexed positionally by column. -/
abbrev Row := List Value

/-- Cell of a row at column `c` (missing when out of range). -/
def getVal (r : Row) (c : ℕ) : Value := r.getD c Value.missing

/-- Cell of a table at row `i`, column `c`. -/
def getCell (t : List Row) (i c : ℕ) : Value := getVal (t.getD i []) c

/-!
## Differ (`_service_two/service_logic.py`, `compare`, lines 105–117)

The comparison loop walks every row position and every column of
`compare_columns`; a pair of cells that are both NaN is skipped, any other
unequal pair is recorded in `mismatches` and the result cell is replaced by
the transition string `"old → new"`.
-/

/-- List of `(row index, column)` pairs recorded by the comparison loop. -/
def mismatches (t1 t2 : List Row) (cols : List ℕ) : List (ℕ × ℕ) :=
  (List.range t1.length).flatMap (fun idx =>
    cols.filterMap (fun c =>
      let v1 := getCell t1 idx c
      let v2 := getCell t2 idx c
      if v1.isna && v2.isna then none
      else if pyNe v1 v2 then some (idx, c) else none))

/-- Cell of `result_df` at `(idx, c)` for a compared column: the transition
string on a recorded change, the first table's cell otherwise. -/
def resultCell (t1 t2 : List Row) (idx c : ℕ) : Value :=
  let v1 := getCell t1 idx c
  let v2 := getCell t2 idx c
  if v1.isna && v2.isna then v1
  else if pyNe v1 v2 then .str (pyStr v1 ++ " → " ++ pyStr v2) else v1

/-!
## Stable sorting and the row aligner
(`_service_two/service_logic.py`, `compare`, lines 77–94)

`DataFrame.sort_values(by=cols)` with several sort columns performs a stable
lexicographic sort; we model it by insertion sort with a lexicographic
comparator over the sort columns.
-/

/-- Insertion of `x` into `l` in front of the first element `y` with
`le x y`; the building block of a stable sort. -/
def insertS (le : α → α → Bool) (x : α) : List α → List α
  | [] => [x]
  | y :: ys => if le x y then x :: y :: ys else y :: insertS le x ys

/-- Stable insertion sort by the boolean comparator `le`. -/
def sortS (le : α → α → Bool) : List α → List α
  | [] => []
  | x :: xs => insertS le x (sortS le xs)

/-- Rank ordering cells of different kinds against one another (numerics,
then strings, then missing values last). -/
def valRank : Value → ℕ
  | .num _ => 0
  | .str _ => 1
  | .missing => 2

/-- Lexicographic strict comparison of two strings, code point by code
point (Python string comparison). -/
def charListLt : List Char → List Char → Bool
  | [], [] => false
  | [], _ :: _ => true
  | _ :: _, [] => false
  | a :: as, b :: bs => if a < b then true else if b < a then false else charListLt as bs

/-- Strict comparison of two cell values: numerics by magnitude, strings
lexicographically, different kinds by rank. -/
def valLt : Value → Value → Bool
  | .num a, .num b => decide (a < b)
  | .str a, .str b => charListLt a.data b.data
  | v, w => decide (valRank v < valRank w)

/-- Lexicographic (non-strict) comparison of two cell tuples. -/
def lexLe : List Value → List Value → Bool
  | [], _ => true
  | _ :: _, [] => false
  | a :: as, b :: bs =>
    if valLt a b then true else if valLt b a then false else lexLe as bs

/-- Tuple of a row's cells at the sort columns. -/
def sortKey (cols : List ℕ) (r : Row) : List Value := cols.map (getVal r)

/-- Row comparator of `sort_values(by=cols)`: lexicographic over `cols`. -/
def rowLe (cols : List ℕ) (r s : Row) : Bool := lexLe (sortKey cols r) (sortKey cols s)

/-- pandas `DataFrame.sort_values(by=cols)` on a list of rows. -/
def sortRows (cols : List ℕ) (t : List Row) : List Row := sortS (rowLe cols) t

/-- Column `k` of a table (`df[key]`). -/
def keyList (t : List Row) (k : ℕ) : List Value := t.map (fun r => getVal r k)

/-- Non-missing key values of a table (`df[key].dropna()`, line 78). -/
def droppedKeys (t : List Row) (k : ℕ) : List Value :=
  (keyList t k).filter (fun v => !v.isna)

/-- Intersection of the two tables' non-missing key values (line 80). -/
def commonKeys (t1 t2 : List Row) (k : ℕ) : List Value :=
  (droppedKeys t1 k).filter (fun v => (droppedKeys t2 k).contains v)

/-- Row-alignment pipeline of `compare` (lines 77–94): keep the rows whose
key lies in the intersection of the two tables' non-missing key values, then
sort both tables by the key column followed by the remaining sortable
columns. -/
def alignTables (t1 t2 : List Row) (k : ℕ) (restCols : List ℕ) :
    List Row × List Row :=
  let ks := commonKeys t1 t2 k
  (sortRows (k :: restCols) (t1.filter (fun r => ks.contains (getVal r k))),
   sortRows (k :: restCols) (t2.filter (fun r => ks.contains (getVal r k))))

/-- Lower-casing of an ASCII character, as Python `str.lower` acts on the
letters occurring here. -/
def lowerChar (c : Char) : Char :=
  if 'A' ≤ c ∧ c ≤ 'Z' then Char.ofNat (c.toNat + 32) else c

/-- Whitespace test used by the strip model. -/
def isWsChar (c : Char) : Bool := c == ' ' || c == '\t' || c == '\n' || c == '\r'

/-- Python `str.strip()`: drop leading and trailing whitespace. -/
def pyStrip (s : String) : String :=
  String.mk (((s.data.dropWhile isWsChar).reverse.dropWhile isWsChar).reverse)

/-- Python `str.lower()`. -/
def pyLower (s : String) : String := String.mk (s.data.map lowerChar)

/-- Modelled from the spec: the key normalization (string-cast, strip,
lower-case) that §4.1 of the spec prescribes for the aligner; the code of
`compare` contains no such step, so this definition exists only to be
compared with the code's behaviour. -/
def specNormalizeKey (v : Value) : Value := .str (pyLower (pyStrip (pyStr v)))

/-!
## Forecast-comparison pivot (`_service_one/service_logic.py`, lines 151–159)
-/

/-- One row of the forecast-comparison pivot, with its two source columns. -/
structure PivotRow where
  source1 : ℚ
  source2 : ℚ

/-- Similarity % column: `(1 - |source1 - source2| / source1) * 100` when
`source1 != 0`, else `0` (the lambda of lines 155–159). -/
def similarityPct (r : PivotRow) : ℚ :=
  if r.source1 ≠ 0 then (1 - |r.source1 - r.source2| / r.source1) * 100 else 0

/-- Difference column: `source1 - source2` (line 151). -/
def difference (r : PivotRow) : ℚ := r.source1 - r.source2

/-!
## Multi-file merge (`_service_eight/service_logic.py`, `service_merge`)
-/

/-- Table with named columns: `cols` are the column names and each row lists
its cells in column order. -/
structure DF where
  cols : List String
  rows : List (List Value)
deriving DecidableEq, Repr

/-- `get_ordinal` of `_service_eight/service_logic.py`: ordinal suffix of a
number. -/
def get_ordinal (n : ℕ) : String :=
  if 10 ≤ n ∧ n ≤ 20 then "th"
  else
    match n % 10 with
    | 1 => "st"
    | 2 => "nd"
    | 3 => "rd"
    | _ => "th"

/-- `get_ordinal_word`: ordinal word of a number, falling back to the numeric
ordinal. -/
def get_ordinal_word (n : ℕ) : String :=
  match n with
  | 1 => "first"
  | 2 => "second"
  | 3 => "third"
  | 4 => "fourth"
  | 5 => "fifth"
  | _ => toString n ++ get_ordinal n

/-- Test `merging_column in df.columns` (line 64). -/
def hasCol (df : DF) (c : String) : Bool := df.cols.contains c

/-- Cell transformation of `df[col].astype(str).fillna('')` (line 71): the
`str()` cast turns a missing value into the string `"nan"`, after which the
`fillna('')` finds no missing values left. -/
def astypeStrFillna (v : Value) : Value :=
  let cast := Value.str (pyStr v)
  if cast.isna then Value.str "" else cast

/-- Application of a cell transformation to one named column of a table. -/
def mapCol (df : DF) (c : String) (f : Value → Value) : DF :=
  ⟨df.cols,
   df.rows.map (fun r => (df.cols.zip r).map (fun p => if p.1 = c then f p.2 else p.2))⟩

/-- Renaming of a column (`df.rename(columns={a: b})`). -/
def renameCol (df : DF) (a b : String) : DF :=
  ⟨df.cols.map (fun c => if c = a then b else c), df.rows⟩

/-- Position of the canonical `merge_key` column. -/
def keyIdx (df : DF) : ℕ := df.cols.findIdx (fun c => c == "merge_key")

/-- Merge-key cell of a row. -/
def rowKey (df : DF) (r : List Value) : Value := getVal r (keyIdx df)

/-- pandas `pd.merge(left, right, on='merge_key', how='outer', suffixes=('', suffix))`
(lines 83–89): a full outer join on the canonical key.  Colliding non-key
column names keep their name on the left (empty suffix) and receive `suffix`
on the right; each left row is paired with every matching right row in order
(missing cells when none matches), and right rows whose key does not occur on
the left are appended with missing cells in the left-only columns. -/
def outerMerge (l r : DF) (sfx : String) : DF :=
  let rcols := (r.cols.eraseIdx (keyIdx r)).map
    (fun c => if l.cols.contains c then c ++ sfx else c)
  let leftKeys := l.rows.map (rowKey l)
  let matchRows := fun (lr : List Value) =>
    let ms := r.rows.filter (fun rr => rowKey r rr == rowKey l lr)
    if ms.isEmpty then [lr ++ rcols.map (fun _ => Value.missing)]
    else ms.map (fun rr => lr ++ rr.eraseIdx (keyIdx r))
  let unmatchedRight := r.rows.filter (fun rr => !(leftKeys.contains (rowKey r rr)))
  let rightRow := fun (rr : List Value) =>
    (List.range l.cols.length).map (fun i =>
      if i = keyIdx l then rowKey r rr else Value.missing) ++ rr.eraseIdx (keyIdx r)
  ⟨l.cols ++ rcols, l.rows.flatMap matchRows ++ unmatchedRight.map rightRow⟩

/-- One input of the merge: a loaded table with its declared merging column. -/
abbrev MergeInput := DF × String

/-- Body of the `service_merge` loop over the enumerated inputs (lines 53–89):
an input whose merging column is missing from its schema is skipped with a
logged warning; the first valid input seeds the accumulator with its key
column cast to strings and renamed `merge_key`; every later valid input is
outer-merged onto the accumulator with the ordinal suffix of its original
position. -/
def serviceMergeE : List (ℕ × MergeInput) → Option DF → Option DF
  | [], acc => acc
  | (i, df, mcol) :: rest, acc =>
    if hasCol df mcol then
      let dfn := renameCol (mapCol df mcol astypeStrFillna) mcol "merge_key"
      match acc with
      | none => serviceMergeE rest (some dfn)
      | some m =>
        serviceMergeE rest (some (outerMerge m dfn ("_" ++ get_ordinal_word (i + 1))))
    else serviceMergeE rest acc

/-- `service_merge` over the ordered sequence of inputs. -/
def service_merge (inputs : List MergeInput) : Option DF :=
  serviceMergeE inputs.enum none

/-!
## Anomaly detection (`_service_three/service_logic.py`, `flag_anomalies`)

The detector scans each (company, service) group in chronological order; a
group is modelled by its list of usage values after the sort by date.  The
original-index bookkeeping of the source maps each group position back to a
distinct row of the full table, so the annotated table is the disjoint union
of the per-group annotation lists.
-/

/-- Direction of a flagged anomaly. -/
inductive Dir where
  | increase
  | decrease
deriving DecidableEq, Repr

/-- Per-row annotation: the `anomaly` flag and the optional direction,
initialized to `false` / `None` (lines 80–81). -/
structure Ann where
  anomaly : Bool
  dir : Option Dir
deriving DecidableEq, Repr

instance : Inhabited Ann := ⟨⟨false, none⟩⟩

/-- Ascending insertion sort of rationals, used by the median. -/
def sortQ (l : List ℚ) : List ℚ := sortS (fun a b => decide (a ≤ b)) l

/-- pandas `Series.median()`: middle element of the sorted values for an odd
count, mean of the two middle elements for an even count. -/
def median (l : List ℚ) : ℚ :=
  let s := sortQ l
  if l.length % 2 = 1 then s.getD (l.length / 2) 0
  else (s.getD (l.length / 2 - 1) 0 + s.getD (l.length / 2) 0) / 2

/-- Trailing window `group.loc[i - window : i - 1]` of the usage series
(line 90): the `window` values immediately preceding row `i`. -/
def histWindow (us : List ℚ) (window i : ℕ) : List ℚ :=
  (us.drop (i - window)).take window

/-- Flagging of a single row `j` of a confirmation window (lines 109–114): a
row that is already flagged is left untouched ("only flag if not already
flagged to preserve direction"); otherwise its flag is set and its direction
is `increase` when its usage exceeds the baseline passed in — the confirming
row's baseline — and `decrease` otherwise. -/
def flagOne (us : List ℚ) (b : ℚ) (j : ℕ) (anns : List Ann) : List Ann :=
  if (anns.getD j ⟨false, none⟩).anomaly then anns
  else anns.set j
    ⟨true, some (if us.getD j 0 > b then Dir.increase else Dir.decrease)⟩

/-- Inner loop `for j in range(lo, lo + n)` of the window flagging. -/
def flagRange (us : List ℚ) (b : ℚ) (lo : ℕ) : ℕ → List Ann → List Ann
  | 0, anns => anns
  | n + 1, anns => flagRange us b (lo + 1) n (flagOne us b lo anns)

/-- Scan state of one group: the per-row annotations and the consecutive
candidate counter. -/
structure ScanState where
  anns : List Ann
  consec : ℕ
deriving DecidableEq, Repr

/-- Body of the scan loop of `flag_anomalies` (lines 88–116) at row `i`: an
empty window or a zero median leaves the state unchanged (no reset); a row
deviating from the baseline by at least both thresholds increments the
consecutive counter and, once the counter has reached `shift`, flags the last
`shift` rows; a non-candidate row resets the counter to zero. -/
def stepAt (pthr athr : ℚ) (window shift : ℕ) (us : List ℚ)
    (st : ScanState) (i : ℕ) : ScanState :=
  let hist := histWindow us window i
  if hist.isEmpty then st
  else
    let baseline := median hist
    if baseline ≠ 0 then
      let cur := us.getD i 0
      let pct := |(cur - baseline) / baseline| * 100
      let absC := |cur - baseline|
      if pct ≥ pthr ∧ absC ≥ athr then
        let consec := st.consec + 1
        if consec ≥ shift then
          ⟨flagRange us baseline (i + 1 - shift) (i + 1 - (i + 1 - shift)) st.anns,
           consec⟩
        else ⟨st.anns, consec⟩
      else ⟨st.anns, 0⟩
    else st

/-- Scan of one (company, service) group of `flag_anomalies`: the usage
values are in chronological order and the loop runs over
`range(window, len(us))`. -/
def flagGroup (pthr athr : ℚ) (window shift : ℕ) (us : List ℚ) : List Ann :=
  (((List.range us.length).drop window).foldl (stepAt pthr athr window shift us)
    ⟨List.replicate us.length ⟨false, none⟩, 0⟩).anns

/-- `flag_anomalies` over the groups of the table: the groupby partitions the
rows, so the annotated table is the disjoint union of the per-group scans. -/
def flag_anomalies (pthr athr : ℚ) (window shift : ℕ)
    (groups : List (List ℚ)) : List (List Ann) :=
  groups.map (flagGroup pthr athr window shift)

/-- Modelled from the spec: the window flagging of the §4.4 state machine,
where each flagged row's direction is computed against that row's OWN local
baseline (the median of the `window` rows preceding that row). -/
def specFlagOne (us : List ℚ) (window : ℕ) (j : ℕ) (anns : List Ann) : List Ann :=
  if (anns.getD j ⟨false, none⟩).anomaly then anns
  else anns.set j
    ⟨true, some (if us.getD j 0 > median (histWindow us window j)
      then Dir.increase else Dir.decrease)⟩

/-- Modelled from the spec: inner flagging loop of the §4.4 machine. -/
def specFlagRange (us : List ℚ) (window : ℕ) (lo : ℕ) : ℕ → List Ann → List Ann
  | 0, anns => anns
  | n + 1, anns => specFlagRange us window (lo + 1) n (specFlagOne us window lo anns)

/-- Modelled from the spec: one transition of the §4.4 per-group state
machine — same candidate test as the code, but `counting(shift-1)` goes to
flag-and-RESET on confirmation (the counter returns to zero), and directions
use each row's own baseline. -/
def specStepAt (pthr athr : ℚ) (window shift : ℕ) (us : List ℚ)
    (st : ScanState) (i : ℕ) : ScanState :=
  let hist := histWindow us window i
  if hist.isEmpty then st
  else
    let baseline := median hist
    if baseline ≠ 0 then
      let cur := us.getD i 0
      let pct := |(cur - baseline) / baseline| * 100
      let absC := |cur - baseline|
      if pct ≥ pthr ∧ absC ≥ athr then
        if st.consec + 1 ≥ shift then
          ⟨specFlagRange us window (i + 1 - shift) (i + 1 - (i + 1 - shift)) st.anns, 0⟩
        else ⟨st.anns, st.consec + 1⟩
      else ⟨st.anns, 0⟩
    else st

/-- Modelled from the spec: the full §4.4 state machine over one group. -/
def specFlagGroup (pthr athr : ℚ) (window shift : ℕ) (us : List ℚ) : List Ann :=
  (((List.range us.length).drop window).foldl (specStepAt pthr athr window shift us)
    ⟨List.replicate us.length ⟨false, none⟩, 0⟩).anns

/-!
## Lemmas about the stable sort and the value order
-/

theorem perm_insertS (le : α → α → Bool) (x : α) (l : List α) :
    (insertS le x l).Perm (x :: l) := by
  induction l with
  | nil => exact List.Perm.refl _
  | cons y ys ih =>
    by_cases h : le x y = true
    · simp [insertS, h]
    · simp only [insertS, h, if_false]
      exact ((ih.cons y).trans (List.Perm.swap x y ys))

theorem perm_sortS (le : α → α → Bool) (l : List α) : (sortS le l).Perm l := by
  induction l with
  | nil => exact List.Perm.refl _
  | cons x xs ih => exact (perm_insertS le x (sortS le xs)).trans (ih.cons x)

theorem mem_insertS (le : α → α → Bool) (x z : α) (l : List α) :
    z ∈ insertS le x l ↔ z = x ∨ z ∈ l := by
  rw [(perm_insertS le x l).mem_iff, List.mem_cons]

theorem pairwise_insertS (le : α → α → Bool) (x : α) (l : List α)
    (htot : ∀ a b, le a b = false → le b a = true)
    (htrans : ∀ a b c, le a b = true → le b c = true → le a c = true)
    (h : l.Pairwise (le · · = true)) :
    (insertS le x l).Pairwise (le · · = true) := by
  induction l with
  | nil => simp [insertS]
  | cons y ys ih =>
    obtain ⟨hy, hys⟩ := List.pairwise_cons.mp h
    by_cases hxy : le x y = true
    · simp only [insertS, hxy, if_true]
      refine List.pairwise_cons.mpr ⟨?_, h⟩
      intro z hz
      rcases List.mem_cons.mp hz with rfl | hz2
      · exact hxy
      · exact htrans x y z hxy (hy z hz2)
    · simp only [insertS, hxy, if_false]
      refine List.pairwise_cons.mpr ⟨?_, ih hys⟩
      intro z hz
      rcases (mem_insertS le x z ys).mp hz with rfl | hz2
      · exact htot _ _ (Bool.eq_false_iff.mpr hxy)
      · exact hy z hz2

theorem pairwise_sortS (le : α → α → Bool) (l : List α)
    (htot : ∀ a b, le a b = false → le b a = true)
    (htrans : ∀ a b c, le a b = true → le b c = true → le a c = true) :
    (sortS le l).Pairwise (le · · = true) := by
  induction l with
  | nil => simp [sortS]
  | cons x xs ih => exact pairwise_insertS le x (sortS le xs) htot htrans ih

theorem filter_insertS_pos (le : α → α → Bool) (p : α → Bool) (x : α) (l : List α)
    (hle : ∀ y, p y = true → le x y = true) (hx : p x = true) :
    (insertS le x l).filter p = x :: l.filter p := by
  induction l with
  | nil => simp [insertS, hx]
  | cons y ys ih =>
    by_cases h : le x y = true
    · simp [insertS, h, hx]
    · have hpy : p y = false := by
        cases hpy : p y
        · rfl
        · exact absurd (hle y hpy) h
      simp [insertS, h, hpy, ih]

theorem filter_insertS_neg (le : α → α → Bool) (p : α → Bool) (x : α) (l : List α)
    (hx : p x = false) :
    (insertS le x l).filter p = l.filter p := by
  induction l with
  | nil => simp [insertS, hx]
  | cons y ys ih =>
    by_cases h : le x y = true
    · simp [insertS, h, hx]
    · by_cases hpy : p y = true <;> simp [insertS, h, hpy, ih]

theorem filter_sortS (le : α → α → Bool) (p : α → Bool) (l : List α)
    (hp : ∀ x y, p x = true → p y = true → le x y = true) :
    (sortS le l).filter p = l.filter p := by
  induction l with
  | nil => simp [sortS]
  | cons x xs ih =>
    by_cases hx : p x = true
    · rw [sortS, filter_insertS_pos le p x (sortS le xs) (fun y hy => hp x y hx hy) hx,
        ih, List.filter_cons_of_pos hx]
    · rw [sortS, filter_insertS_neg le p x (sortS le xs) (Bool.eq_false_iff.mpr hx),
        ih, List.filter_cons_of_neg (by simpa using hx)]

theorem charListLt_irrefl (l : List Char) : charListLt l l = false := by
  induction l with
  | nil => rfl
  | cons a as ih => simp [charListLt, lt_irrefl, ih]

theorem charListLt_asymm : ∀ {x y : List Char},
    charListLt x y = true → charListLt y x = false
  | [], [], h => by simp [charListLt] at h
  | [], _ :: _, _ => rfl
  | _ :: _, [], h => by simp [charListLt] at h
  | a :: as, b :: bs, h => by
    by_cases hab : a < b
    · simp [charListLt, hab, lt_asymm hab]
    · by_cases hba : b < a
      · simp [charListLt, hab, hba] at h
      · simp only [charListLt, hab, hba, if_false] at h
        simp [charListLt, hab, hba, charListLt_asymm h]

theorem charListLt_trans : ∀ {x y z : List Char},
    charListLt x y = true → charListLt y z = true → charListLt x z = true
  | [], [], _, h1, _ => by simp [charListLt] at h1
  | [], _ :: _, [], _, h2 => by simp [charListLt] at h2
  | [], _ :: _, _ :: _, _, _ => rfl
  | _ :: _, [], _, h1, _ => by simp [charListLt] at h1
  | _ :: _, _ :: _, [], _, h2 => by simp [charListLt] at h2
  | a :: as, b :: bs, c :: cs, h1, h2 => by
    by_cases hab : a < b
    · by_cases hbc : b < c
      · simp [charListLt, lt_trans hab hbc]
      · by_cases hcb : c < b
        · simp [charListLt, hbc, hcb] at h2
        · have hbceq : b = c := le_antisymm (not_lt.mp hcb) (not_lt.mp hbc)
          subst hbceq
          simp [charListLt, hab]
    · by_cases hba : b < a
      · simp [charListLt, hab, hba] at h1
      · have habeq : a = b := le_antisymm (not_lt.mp hba) (not_lt.mp hab)
        subst habeq
        simp only [charListLt, lt_irrefl, if_false] at h1
        by_cases hac : a < c
        · simp [charListLt, hac]
        · by_cases hca : c < a
          · simp [charListLt, hac, hca] at h2
          · simp only [charListLt, hac, hca, if_false] at h2 ⊢
            exact charListLt_trans h1 h2

theorem charListEq_of_not_lt : ∀ {x y : List Char},
    charListLt x y = false → charListLt y x = false → x = y
  | [], [], _, _ => rfl
  | [], _ :: _, h1, _ => by simp [charListLt] at h1
  | _ :: _, [], _, h2 => by simp [charListLt] at h2
  | a :: as, b :: bs, h1, h2 => by
    by_cases hab : a < b
    · simp [charListLt, hab] at h1
    · by_cases hba : b < a
      · simp [charListLt, hab, hba] at h2
      · have habeq : a = b := le_antisymm (not_lt.mp hba) (not_lt.mp hab)
        subst habeq
        simp only [charListLt, lt_irrefl, if_false] at h1 h2
        rw [charListEq_of_not_lt h1 h2]

theorem valLt_irrefl (v : Value) : valLt v v = false := by
  cases v <;> simp [valLt, charListLt_irrefl]

theorem valLt_asymm {a b : Value} (h : valLt a b = true) : valLt b a = false := by
  cases a <;> cases b <;> simp_all [valLt, valRank] <;>
    first
      | omega
      | exact le_of_lt h
      | exact charListLt_asymm h

theorem valLt_trans {a b c : Value} (h1 : valLt a b = true) (h2 : valLt b c = true) :
    valLt a c = true := by
  cases a <;> cases b <;> cases c <;> simp_all [valLt, valRank] <;>
    first
      | omega
      | exact lt_trans h1 h2
      | exact charListLt_trans h1 h2

theorem valEq_of_not_lt : ∀ {a b : Value}, valLt a b = false → valLt b a = false → a = b
  | .missing, .missing, _, _ => rfl
  | .num a, .num b, h1, h2 => by
      have h1a : ¬ a < b := by simpa [valLt] using h1
      have h2a : ¬ b < a := by simpa [valLt] using h2
      exact congrArg Value.num (le_antisymm (not_lt.mp h2a) (not_lt.mp h1a))
  | .str a, .str b, h1, h2 => by
      have h1a : charListLt a.data b.data = false := by simpa [valLt] using h1
      have h2a : charListLt b.data a.data = false := by simpa [valLt] using h2
      have hd : a.data = b.data := charListEq_of_not_lt h1a h2a
      exact congrArg Value.str (String.ext hd)
  | .missing, .num _, _, h2 => by simp [valLt, valRank] at h2
  | .missing, .str _, _, h2 => by simp [valLt, valRank] at h2
  | .num _, .missing, h1, _ => by simp [valLt, valRank] at h1
  | .num _, .str _, h1, _ => by simp [valLt, valRank] at h1
  | .str _, .missing, h1, _ => by simp [valLt, valRank] at h1
  | .str _, .num _, _, h2 => by simp [valLt, valRank] at h2

theorem lexLe_refl (l : List Value) : lexLe l l = true := by
  induction l with
  | nil => rfl
  | cons a as ih => simp [lexLe, valLt_irrefl, ih]

theorem lexLe_total (x y : List Value) (h : lexLe x y = false) : lexLe y x = true := by
  induction x generalizing y with
  | nil => simp [lexLe] at h
  | cons a as ih =>
    cases y with
    | nil => rfl
    | cons b bs =>
      by_cases hab : valLt a b = true
      · simp [lexLe, hab] at h
      · by_cases hba : valLt b a = true
        · simp [lexLe, hba]
        · simp only [lexLe, hab, hba, if_false] at h ⊢
          exact ih bs h

theorem lexLe_trans {x y z : List Value} (h1 : lexLe x y = true)
    (h2 : lexLe y z = true) : lexLe x z = true := by
  induction x generalizing y z with
  | nil => rfl
  | cons a as ih =>
    cases y with
    | nil => simp [lexLe] at h1
    | cons b bs =>
      cases z with
      | nil => simp [lexLe] at h2
      | cons c cs =>
        by_cases hab : valLt a b = true
        · by_cases hbc : valLt b c = true
          · simp [lexLe, valLt_trans hab hbc]
          · by_cases hcb : valLt c b = true
            · simp [lexLe, hbc, hcb] at h2
            · have hbceq : b = c :=
                valEq_of_not_lt (by simpa using hbc) (by simpa using hcb)
              subst hbceq
              simp [lexLe, hab]
        · by_cases hba : valLt b a = true
          · simp [lexLe, hab, hba] at h1
          · have habeq : a = b :=
              valEq_of_not_lt (by simpa using hab) (by simpa using hba)
            subst habeq
            simp only [lexLe, hab, hba, if_false] at h1
            by_cases hac : valLt a c = true
            · simp [lexLe, hac]
            · by_cases hca : valLt c a = true
              · simp [lexLe, hac, hca] at h2
              · simp only [lexLe, hac, hca, if_false] at h2 ⊢
                exact ih h1 h2

theorem lexLe_head_not_lt {a b : Value} {as bs : List Value}
    (h : lexLe (a :: as) (b :: bs) = true) : valLt b a = false := by
  by_cases hab : valLt a b = true
  · exact valLt_asymm hab
  · by_cases hba : valLt b a = true
    · simp [lexLe, hab, hba] at h
    · simpa using hba

theorem rowLe_total (cols : List ℕ) (r s : Row) (h : rowLe cols r s = false) :
    rowLe cols s r = true :=
  lexLe_total _ _ h

theorem rowLe_trans (cols : List ℕ) (r s u : Row) (h1 : rowLe cols r s = true)
    (h2 : rowLe cols s u = true) : rowLe cols r u = true :=
  lexLe_trans h1 h2

/-!
## Theorems for the differ and the pivot
-/

theorem pyNe_self_eq_isna (v : Value) : pyNe v v = v.isna := by
  cases v <;> simp [pyNe, Value.isna]

theorem mismatch_entry_none (t : List Row) (idx c : ℕ) :
    (if (getCell t idx c).isna && (getCell t idx c).isna then none
     else if pyNe (getCell t idx c) (getCell t idx c) then some (idx, c)
     else none) = (none : Option (ℕ × ℕ)) := by
  cases hv : (getCell t idx c).isna <;>
    simp [hv, pyNe_self_eq_isna]

/-- C9: whenever both compared cells are missing the differ emits no
DiffRecord and leaves the result cell unchanged; and diffing any table
against itself yields zero DiffRecords. -/
theorem diff_missing_missing_and_selfdiff (t1 t2 t : List Row) (cols : List ℕ)
    (idx c : ℕ) (h1 : (getCell t1 idx c).isna = true)
    (h2 : (getCell t2 idx c).isna = true) :
    (idx, c) ∉ mismatches t1 t2 cols ∧
      resultCell t1 t2 idx c = getCell t1 idx c ∧
      mismatches t t cols = [] := by
  refine ⟨?_, ?_, ?_⟩
  · intro hmem
    simp only [mismatches, List.mem_flatMap, List.mem_filterMap,
      List.mem_range] at hmem
    obtain ⟨i, -, c2, -, heq⟩ := hmem
    by_cases hb : ((getCell t1 i c2).isna && (getCell t2 i c2).isna) = true
    · simp [hb] at heq
    · by_cases hp : pyNe (getCell t1 i c2) (getCell t2 i c2) = true
      · rw [if_neg hb, if_pos hp] at heq
        obtain ⟨rfl, rfl⟩ : i = idx ∧ c2 = c := by simpa using heq
        exact hb (by simp [h1, h2])
      · rw [if_neg hb, if_neg hp] at heq
        exact Option.noConfusion heq
  · simp [resultCell, h1, h2]
  · apply List.eq_nil_iff_forall_not_mem.mpr
    intro p hp
    simp only [mismatches, List.mem_flatMap, List.mem_filterMap,
      List.mem_range] at hp
    obtain ⟨i, -, c2, -, heq⟩ := hp
    rw [mismatch_entry_none t i c2] at heq
    exact Option.noConfusion heq

theorem diff_missing_missing_and_selfdiff_w :
    (0, 0) ∉ mismatches [[Value.missing]] [[Value.missing]] [0] ∧
      resultCell [[Value.missing]] [[Value.missing]] 0 0 =
        getCell [[Value.missing]] 0 0 ∧
      mismatches [[Value.str "a"]] [[Value.str "a"]] [0] = [] :=
  diff_missing_missing_and_selfdiff [[Value.missing]] [[Value.missing]]
    [[Value.str "a"]] [0] 0 0 (by decide) (by decide)

/-- C6: the Similarity % of every pivot row equals
`(1 - |source1 - source2| / source1) * 100` when `source1 ≠ 0` and `0` when
`source1 = 0` (the division branch is never taken at zero); in particular
`source1 = 100, source2 = 80` gives `Difference = 20` and `Similarity% = 80`,
and `source1 = 0` gives `0` for an arbitrary `source2`. -/
theorem similarity_formula (r : PivotRow) :
    (r.source1 ≠ 0 → similarityPct r = (1 - |r.source1 - r.source2| / r.source1) * 100) ∧
      (r.source1 = 0 → similarityPct r = 0) ∧
      similarityPct ⟨100, 80⟩ = 80 ∧ difference ⟨100, 80⟩ = 20 ∧
      similarityPct ⟨0, 37⟩ = 0 := by
  refine ⟨fun h => by simp [similarityPct, h], fun h => by simp [similarityPct, h], ?_, ?_, ?_⟩
  · norm_num [similarityPct, abs, max_def]
  · norm_num [difference]
  · norm_num [similarityPct]

theorem similarity_formula_w :
    similarityPct ⟨100, 80⟩ = (1 - |(100:ℚ) - 80| / 100) * 100 :=
  (similarity_formula ⟨100, 80⟩).1 (by norm_num)

/-!
## Theorems for the aligner
-/

/-- C4 is refuted by the code: two keys that differ only in surrounding
whitespace and letter case have equal normalized forms, yet `compare` — whose
key intersection of lines 78–80 uses the raw values with no string-cast,
strip or lower-casing — does not match them: both aligned outputs are
empty. -/
theorem align_no_normalization_cex :
    specNormalizeKey (Value.str " X ") = specNormalizeKey (Value.str "x") ∧
      alignTables [[Value.str " X "]] [[Value.str "x"]] 0 [] = ([], []) := by
  constructor
  · decide
  · decide

/-- C4 amended: the aligner matches key values exactly as they appear in the
tables (no normalization): every aligned row's key is a raw value occurring in
both key columns, and rows with a missing key never participate in the
alignment. -/
theorem align_raw_keys_missing_dropped (t1 t2 : List Row) (k : ℕ)
    (restCols : List ℕ) (r : Row)
    (h : r ∈ (alignTables t1 t2 k restCols).1 ∨
      r ∈ (alignTables t1 t2 k restCols).2) :
    (getVal r k).isna = false ∧ getVal r k ∈ keyList t1 k ∧
      getVal r k ∈ keyList t2 k := by
  have key : ∀ t : List Row,
      r ∈ sortRows (k :: restCols)
        (t.filter (fun s => (commonKeys t1 t2 k).contains (getVal s k))) →
      (getVal r k).isna = false ∧ getVal r k ∈ keyList t1 k ∧
        getVal r k ∈ keyList t2 k := by
    intro t hr
    have hr2 : r ∈ t.filter (fun s => (commonKeys t1 t2 k).contains (getVal s k)) :=
      (perm_sortS (rowLe (k :: restCols)) _).mem_iff.mp hr
    obtain ⟨-, hc⟩ := List.mem_filter.mp hr2
    have hmem : getVal r k ∈ commonKeys t1 t2 k := List.mem_of_elem_eq_true hc
    obtain ⟨h1m, h2c⟩ := List.mem_filter.mp hmem
    obtain ⟨h1k, h1na⟩ := List.mem_filter.mp h1m
    have h2m : getVal r k ∈ droppedKeys t2 k := List.mem_of_elem_eq_true h2c
    obtain ⟨h2k, -⟩ := List.mem_filter.mp h2m
    exact ⟨by simpa using h1na, h1k, h2k⟩
  simp only [alignTables] at h
  rcases h with h | h
  · exact key t1 h
  · exact key t2 h

theorem align_raw_keys_missing_dropped_w :
    (getVal [Value.str "a"] 0).isna = false ∧
      getVal [Value.str "a"] 0 ∈ keyList [[Value.str "a"]] 0 ∧
      getVal [Value.str "a"] 0 ∈ keyList [[Value.str "a"]] 0 :=
  align_raw_keys_missing_dropped [[Value.str "a"]] [[Value.str "a"]] 0 []
    [Value.str "a"] (Or.inl (by decide))

/-- C5 is refuted by the code when a key occurs with different multiplicity in
the two tables: with the key `"a"` twice in table A and once in table B, both
rows of A and the single row of B survive the intersection filter, so the
aligned outputs have two rows and one row respectively. -/
theorem align_unequal_multiplicity_cex :
    ((alignTables [[Value.str "a"], [Value.str "a"]] [[Value.str "a"]] 0 []).1).length = 2 ∧
      ((alignTables [[Value.str "a"], [Value.str "a"]] [[Value.str "a"]] 0 []).2).length = 1 := by
  constructor
  · decide
  · decide

/-- C5 amended: when every common key occurs with the same multiplicity in
both tables, the aligned outputs are row-parallel: the sequences of key
values, position by position, coincide (hence so do the row counts). -/
theorem align_parallel_of_equal_multiplicity (t1 t2 : List Row) (k : ℕ)
    (restCols : List ℕ)
    (h : ∀ v ∈ commonKeys t1 t2 k, (keyList t1 k).count v = (keyList t2 k).count v) :
    ((alignTables t1 t2 k restCols).1).map (fun r => getVal r k) =
      ((alignTables t1 t2 k restCols).2).map (fun r => getVal r k) := by
  haveI : IsAntisymm Value (fun v w => valLt w v = false) :=
    ⟨fun a b hab hba => valEq_of_not_lt hba hab⟩
  have sorted : ∀ t : List Row,
      ((sortRows (k :: restCols) t).map (fun r => getVal r k)).Pairwise
        (fun v w => valLt w v = false) := by
    intro t
    have hp := pairwise_sortS (rowLe (k :: restCols)) t
      (rowLe_total (k :: restCols)) (rowLe_trans (k :: restCols))
    exact List.Pairwise.map (fun r => getVal r k)
      (fun a b hab => lexLe_head_not_lt (by simpa [rowLe, sortKey] using hab)) hp
  have hcount : ∀ t : List Row, ∀ v : Value,
      ((sortRows (k :: restCols)
          (t.filter (fun s => (commonKeys t1 t2 k).contains (getVal s k)))).map
        (fun r => getVal r k)).count v =
      ((keyList t k).filter (fun u => (commonKeys t1 t2 k).contains u)).count v := by
    intro t v
    have hper := ((perm_sortS (rowLe (k :: restCols))
      (t.filter (fun s => (commonKeys t1 t2 k).contains (getVal s k)))).map
        (fun r => getVal r k))
    simp only [sortRows]
    rw [hper.count_eq]
    congr 1
    rw [keyList, List.filter_map]
    rfl
  have hperm :
      (((alignTables t1 t2 k restCols).1).map (fun r => getVal r k)).Perm
        (((alignTables t1 t2 k restCols).2).map (fun r => getVal r k)) := by
    simp only [alignTables]
    rw [List.perm_iff_count]
    intro v
    rw [hcount t1 v, hcount t2 v]
    by_cases hv : (commonKeys t1 t2 k).contains v = true
    · rw [List.count_filter hv, List.count_filter hv]
      exact h v (List.mem_of_elem_eq_true hv)
    · have hz1 : v ∉ (keyList t1 k).filter (fun u => (commonKeys t1 t2 k).contains u) := by
        intro hmm
        exact hv (List.mem_filter.mp hmm).2
      have hz2 : v ∉ (keyList t2 k).filter (fun u => (commonKeys t1 t2 k).contains u) := by
        intro hmm
        exact hv (List.mem_filter.mp hmm).2
      rw [List.count_eq_zero.mpr hz1, List.count_eq_zero.mpr hz2]
  have hs1 := sorted (t1.filter (fun s => (commonKeys t1 t2 k).contains (getVal s k)))
  have hs2 := sorted (t2.filter (fun s => (commonKeys t1 t2 k).contains (getVal s k)))
  simp only [alignTables] at hperm ⊢
  exact List.eq_of_perm_of_sorted hperm hs1 hs2

theorem align_parallel_of_equal_multiplicity_w :
    ((alignTables [[Value.str "a"]] [[Value.str "a"]] 0 []).1).map
        (fun r => getVal r 0) =
      ((alignTables [[Value.str "a"]] [[Value.str "a"]] 0 []).2).map
        (fun r => getVal r 0) :=
  align_parallel_of_equal_multiplicity [[Value.str "a"]] [[Value.str "a"]] 0 []
    (by decide)

/-- C8 is refuted by the code: the sort of lines 87–94 is by the key column
followed by the other sortable columns, so two duplicate-key rows differing in
another sortable column are reordered by that column instead of keeping their
pre-sort relative order. -/
theorem align_dup_key_reorder_cex :
    (((alignTables [[Value.str "k", Value.str "b"], [Value.str "k", Value.str "a"]]
          [[Value.str "k", Value.str "a"]] 0 [1]).1).filter
        (fun r => getVal r 0 == Value.str "k")) ≠
      (([[Value.str "k", Value.str "b"], [Value.str "k", Value.str "a"]].filter
          (fun r => (commonKeys
            [[Value.str "k", Value.str "b"], [Value.str "k", Value.str "a"]]
            [[Value.str "k", Value.str "a"]] 0).contains (getVal r 0))).filter
        (fun r => getVal r 0 == Value.str "k")) := by
  decide

/-- C8 amended: the sort is stable with respect to the full sort key — rows
that agree on the key column and on every other sortable column keep their
pre-sort relative order in each aligned output; duplicate-key rows differing
in another sortable column are ordered by those columns. -/
theorem align_stable_on_full_sort_key (t1 t2 : List Row) (k : ℕ)
    (restCols : List ℕ) (ks : List Value) :
    (((alignTables t1 t2 k restCols).1).filter
        (fun r => sortKey (k :: restCols) r == ks)) =
      ((t1.filter (fun r => (commonKeys t1 t2 k).contains (getVal r k))).filter
        (fun r => sortKey (k :: restCols) r == ks)) ∧
      (((alignTables t1 t2 k restCols).2).filter
          (fun r => sortKey (k :: restCols) r == ks)) =
        ((t2.filter (fun r => (commonKeys t1 t2 k).contains (getVal r k))).filter
          (fun r => sortKey (k :: restCols) r == ks)) := by
  constructor <;>
  · simp only [alignTables, sortRows]
    apply filter_sortS
    intro x y hx hy
    have hx2 : sortKey (k :: restCols) x = ks := by simpa using hx
    have hy2 : sortKey (k :: restCols) y = ks := by simpa using hy
    simp only [rowLe, hx2, hy2]
    exact lexLe_refl ks

/-!
## Theorems for the multi-file merge
-/

theorem serviceMergeE_filter (l : List (ℕ × MergeInput)) (acc : Option DF) :
    serviceMergeE l acc =
      serviceMergeE (l.filter (fun p => hasCol p.2.1 p.2.2)) acc := by
  induction l generalizing acc with
  | nil => rfl
  | cons hd rest ih =>
    obtain ⟨i, df, mcol⟩ := hd
    by_cases hv : hasCol df mcol = true
    · rw [List.filter_cons_of_pos (by simpa using hv)]
      cases acc with
      | none => simp only [serviceMergeE, hv, if_true]; exact ih _
      | some m => simp only [serviceMergeE, hv, if_true]; exact ih _
    · rw [List.filter_cons_of_neg (by simpa using hv)]
      simp only [serviceMergeE, hv, if_false]
      exact ih acc

theorem serviceMergeE_some_ne_none (l : List (ℕ × MergeInput)) (m : DF) :
    serviceMergeE l (some m) ≠ none := by
  induction l generalizing m with
  | nil => simp [serviceMergeE]
  | cons hd rest ih =>
    obtain ⟨i, df, mcol⟩ := hd
    by_cases hv : hasCol df mcol = true
    · simp only [serviceMergeE, hv, if_true]
      exact ih _
    · simp only [serviceMergeE, hv, if_false]
      exact ih m

/-- C3 is refuted by the code: with a first table that carries its declared
key column and a second table that does not, `service_merge` does not abort —
it skips the second table and returns the merge seeded from the first table
(its key column renamed to `merge_key`); no `MergeError` exists anywhere in
the program. -/
theorem merge_missing_key_skips_cex :
    service_merge
        [(⟨["k", "a"], [[Value.str "x", Value.str "1"]]⟩, "k"),
         (⟨["b"], [[Value.str "2"]]⟩, "k")] =
      some ⟨["merge_key", "a"], [[Value.str "x", Value.str "1"]]⟩ := by
  decide

/-- C3 amended: a table whose declared key column is absent from its schema is
skipped (with a logged warning) while the merge continues over the remaining
tables, keeping the results merged so far; the merge yields no output only
when every table is skipped. -/
theorem merge_skips_invalid_tables (inputs : List MergeInput) :
    service_merge inputs =
      serviceMergeE (inputs.enum.filter (fun p => hasCol p.2.1 p.2.2)) none ∧
      (service_merge inputs = none ↔
        inputs.enum.filter (fun p => hasCol p.2.1 p.2.2) = []) := by
  have h1 : service_merge inputs =
      serviceMergeE (inputs.enum.filter (fun p => hasCol p.2.1 p.2.2)) none :=
    serviceMergeE_filter inputs.enum none
  refine ⟨h1, ?_⟩
  rw [h1]
  cases hF : inputs.enum.filter (fun p => hasCol p.2.1 p.2.2) with
  | nil => simp [serviceMergeE]
  | cons hd tl =>
    obtain ⟨i, df, mcol⟩ := hd
    have hmem : (i, df, mcol) ∈ inputs.enum.filter (fun p => hasCol p.2.1 p.2.2) := by
      rw [hF]; exact List.mem_cons_self _ _
    have hv : hasCol df mcol = true := by
      simpa using (List.mem_filter.mp hmem).2
    simp only [serviceMergeE, hv, if_true]
    simp [serviceMergeE_some_ne_none]

/-- C7 is refuted by the code: when the merge seeds its result from the first
table, `astype(str)` runs before `fillna('')`, so a missing key value becomes
the placeholder string `"nan"` (not the empty string) and key values are not
trimmed. -/
theorem merge_seed_nan_not_empty_cex :
    service_merge [(⟨["k"], [[Value.missing], [Value.str " a "]]⟩, "k")] =
      some ⟨["merge_key"], [[Value.str "nan"], [Value.str " a "]]⟩ ∧
      Value.str "nan" ≠ Value.str "" ∧ Value.str " a " ≠ Value.str "a" := by
  refine ⟨by decide, by decide, by decide⟩

/-- C7 amended: the key-column coercion casts every value with `str()` —
verbatim, with no trimming — and the subsequent `fillna('')` never applies
because the cast leaves no missing values; in particular a missing key becomes
the string `"nan"`, not the empty string. -/
theorem merge_key_cast_fillna_noop (v : Value) :
    astypeStrFillna v = Value.str (pyStr v) ∧
      astypeStrFillna Value.missing = Value.str "nan" ∧
      (∀ s : String, astypeStrFillna (Value.str s) = Value.str s) := by
  refine ⟨?_, rfl, fun s => rfl⟩
  cases v <;> rfl

/-!
## Theorems for the anomaly detector
-/

theorem getD_set_at {α : Type} (l : List α) (j : ℕ) (v d : α) (h : j < l.length) :
    (l.set j v).getD j d = v := by
  simp [List.getD, List.getElem?_set, h]

theorem getD_set_away {α : Type} (l : List α) (i j : ℕ) (v d : α) (h : i ≠ j) :
    (l.set i v).getD j d = l.getD j d := by
  simp [List.getD, List.getElem?_set, h]

theorem flagOne_length (us : List ℚ) (b : ℚ) (j : ℕ) (anns : List Ann) :
    (flagOne us b j anns).length = anns.length := by
  unfold flagOne
  split
  · rfl
  · simp

theorem flagRange_length (us : List ℚ) (b : ℚ) :
    ∀ (n lo : ℕ) (anns : List Ann),
      (flagRange us b lo n anns).length = anns.length
  | 0, _, _ => rfl
  | n + 1, lo, anns => by
    rw [flagRange, flagRange_length us b n (lo + 1) (flagOne us b lo anns),
      flagOne_length]

theorem flagOne_getD_ne (us : List ℚ) (b : ℚ) (i j : ℕ) (anns : List Ann)
    (d : Ann) (h : i ≠ j) : (flagOne us b i anns).getD j d = anns.getD j d := by
  unfold flagOne
  split
  · rfl
  · exact getD_set_away anns i j _ d h

theorem flagOne_getD_of_flagged (us : List ℚ) (b : ℚ) (i j : ℕ)
    (anns : List Ann) (d : Ann)
    (h : (anns.getD j ⟨false, none⟩).anomaly = true) :
    (flagOne us b i anns).getD j d = anns.getD j d := by
  by_cases hij : i = j
  · subst hij
    unfold flagOne
    split
    · rfl
    · simp_all
  · exact flagOne_getD_ne us b i j anns d hij

theorem flagRange_getD_of_flagged (us : List ℚ) (b : ℚ) (j : ℕ) (d : Ann) :
    ∀ (n lo : ℕ) (anns : List Ann),
      (anns.getD j ⟨false, none⟩).anomaly = true →
      (flagRange us b lo n anns).getD j d = anns.getD j d
  | 0, _, _, _ => rfl
  | n + 1, lo, anns, h => by
    rw [flagRange]
    have hstep : (flagOne us b lo anns).getD j ⟨false, none⟩ =
        anns.getD j ⟨false, none⟩ :=
      flagOne_getD_of_flagged us b lo j anns _ h
    rw [flagRange_getD_of_flagged us b j d n (lo + 1) (flagOne us b lo anns)
      (by rw [hstep]; exact h)]
    exact flagOne_getD_of_flagged us b lo j anns d h

theorem flagRange_getD_of_unflagged (us : List ℚ) (b : ℚ) (j : ℕ) (d : Ann) :
    ∀ (n lo : ℕ) (anns : List Ann), lo ≤ j → j < lo + n → j < anns.length →
      (anns.getD j ⟨false, none⟩).anomaly = false →
      (flagRange us b lo n anns).getD j d =
        ⟨true, some (if us.getD j 0 > b then Dir.increase else Dir.decrease)⟩
  | 0, lo, anns, h1, h2, _, _ => by omega
  | n + 1, lo, anns, h1, h2, h3, h4 => by
    rw [flagRange]
    by_cases hj : j = lo
    · subst hj
      have hset : flagOne us b j anns = anns.set j
          ⟨true, some (if us.getD j 0 > b then Dir.increase else Dir.decrease)⟩ := by
        unfold flagOne
        rw [if_neg (by rw [h4]; simp)]
      rw [hset]
      have hflagged : ((anns.set j
          ⟨true, some (if us.getD j 0 > b then Dir.increase else Dir.decrease)⟩).getD
            j ⟨false, none⟩).anomaly = true := by
        rw [getD_set_at anns j _ _ h3]
      rw [flagRange_getD_of_flagged us b j d n (j + 1) _ hflagged]
      exact getD_set_at anns j _ d h3
    · have hlo : lo < j := lt_of_le_of_ne h1 (fun hmm => hj hmm.symm)
      refine flagRange_getD_of_unflagged us b j d n (lo + 1) (flagOne us b lo anns)
        hlo (by omega) ?_ ?_
      · rw [flagOne_length]; exact h3
      · rw [flagOne_getD_ne us b lo j anns _ (fun hmm => hj hmm.symm)]
        exact h4

theorem flagRange_anomaly_true (us : List ℚ) (b : ℚ) (j n lo : ℕ)
    (anns : List Ann) (h1 : lo ≤ j) (h2 : j < lo + n) (h3 : j < anns.length) :
    ((flagRange us b lo n anns).getD j ⟨false, none⟩).anomaly = true := by
  by_cases h : (anns.getD j ⟨false, none⟩).anomaly = true
  · rw [flagRange_getD_of_flagged us b j _ n lo anns h]
    exact h
  · rw [flagRange_getD_of_unflagged us b j _ n lo anns h1 h2 h3
      (by simpa using h)]

theorem stepAt_candidate (pthr athr : ℚ) (window shift : ℕ) (us : List ℚ)
    (st : ScanState) (i : ℕ)
    (hne : (histWindow us window i).isEmpty = false)
    (hb : median (histWindow us window i) ≠ 0)
    (hc1 : |(us.getD i 0 - median (histWindow us window i)) /
      median (histWindow us window i)| * 100 ≥ pthr)
    (hc2 : |us.getD i 0 - median (histWindow us window i)| ≥ athr) :
    stepAt pthr athr window shift us st i =
      if st.consec + 1 ≥ shift then
        ⟨flagRange us (median (histWindow us window i)) (i + 1 - shift)
          (i + 1 - (i + 1 - shift)) st.anns, st.consec + 1⟩
      else ⟨st.anns, st.consec + 1⟩ := by
  simp only [stepAt]
  rw [if_neg (by simp [hne]), if_pos hb, if_pos ⟨hc1, hc2⟩]

/-- C1 is refuted by the code: the consecutive counter is not reset after a
confirmation.  On the series 100, 200, 300, 400 with window 1, shift 2 and
the default thresholds, every row from index 1 on is a candidate; the code
flags rows 1–3 — three rows, which cannot be a union of disjoint windows of
length 2 — while the spec machine with flag-and-reset flags exactly
rows 1–2. -/
theorem anomaly_no_reset_cex :
    flagGroup 20 60 1 2 [100, 200, 300, 400] =
      [⟨false, none⟩, ⟨true, some Dir.decrease⟩, ⟨true, some Dir.increase⟩,
       ⟨true, some Dir.increase⟩] ∧
      specFlagGroup 20 60 1 2 [100, 200, 300, 400] =
        [⟨false, none⟩, ⟨true, some Dir.increase⟩, ⟨true, some Dir.increase⟩,
         ⟨false, none⟩] ∧
      ((flagGroup 20 60 1 2 [100, 200, 300, 400]).countP
        (fun a => a.anomaly)) % 2 = 1 := by
  have e1 : flagGroup 20 60 1 2 [100, 200, 300, 400] =
      [⟨false, none⟩, ⟨true, some Dir.decrease⟩, ⟨true, some Dir.increase⟩,
       ⟨true, some Dir.increase⟩] := by
    norm_num [flagGroup, stepAt, flagRange, flagOne, histWindow, median, sortQ,
      sortS, insertS, List.range_succ, abs, max_def, List.getD,
      List.replicate_succ, List.set]
  have e2 : specFlagGroup 20 60 1 2 [100, 200, 300, 400] =
      [⟨false, none⟩, ⟨true, some Dir.increase⟩, ⟨true, some Dir.increase⟩,
       ⟨false, none⟩] := by
    norm_num [specFlagGroup, specStepAt, specFlagRange, specFlagOne, histWindow,
      median, sortQ, sortS, insertS, List.range_succ, abs, max_def, List.getD,
      List.replicate_succ, List.set]
  refine ⟨e1, e2, ?_⟩
  rw [e1]
  decide

/-- C1 amended: a candidate row always increments the counter — also on a
confirmation, where the counter is NOT reset — and whenever the incremented
counter has reached `shift` the code immediately flags the whole window of the
last `shift` rows; hence each further consecutive candidate of a long run
completes another (overlapping) confirmation window at once, instead of only
after `shift` further candidates. -/
theorem anomaly_candidate_no_reset (pthr athr : ℚ) (window shift : ℕ)
    (us : List ℚ) (st : ScanState) (i : ℕ)
    (hne : (histWindow us window i).isEmpty = false)
    (hb : median (histWindow us window i) ≠ 0)
    (hc1 : |(us.getD i 0 - median (histWindow us window i)) /
      median (histWindow us window i)| * 100 ≥ pthr)
    (hc2 : |us.getD i 0 - median (histWindow us window i)| ≥ athr) :
    (stepAt pthr athr window shift us st i).consec = st.consec + 1 ∧
      (st.consec + 1 ≥ shift →
        ∀ j, i + 1 - shift ≤ j → j ≤ i → j < st.anns.length →
          (((stepAt pthr athr window shift us st i).anns).getD j
            ⟨false, none⟩).anomaly = true) ∧
      (st.consec + 1 < shift →
        (stepAt pthr athr window shift us st i).anns = st.anns) := by
  rw [stepAt_candidate pthr athr window shift us st i hne hb hc1 hc2]
  by_cases hs : st.consec + 1 ≥ shift
  · rw [if_pos hs]
    refine ⟨rfl, fun _ j hj1 hj2 hj3 => ?_, fun hlt => absurd hs (not_le.mpr hlt)⟩
    exact flagRange_anomaly_true us _ j _ _ st.anns hj1 (by omega) hj3
  · rw [if_neg hs]
    exact ⟨rfl, fun hge => absurd hge hs, fun _ => rfl⟩

theorem anomaly_candidate_no_reset_w :
    (stepAt 20 60 1 2 [100, 200, 300, 400]
      ⟨List.replicate 4 ⟨false, none⟩, 1⟩ 2).consec = 2 :=
  (anomaly_candidate_no_reset 20 60 1 2 [100, 200, 300, 400]
    ⟨List.replicate 4 ⟨false, none⟩, 1⟩ 2
    (by norm_num [histWindow])
    (by norm_num [median, histWindow, sortQ, sortS, insertS, List.getD])
    (by norm_num [median, histWindow, sortQ, sortS, insertS, List.getD, abs, max_def])
    (by norm_num [median, histWindow, sortQ, sortS, insertS, List.getD, abs, max_def])).1

/-- C2 is refuted by the code: on the series 100, 200, 300, 400 with window 1
and shift 2, row 1 (usage 200) is flagged with direction `decrease`, although
its value strictly exceeds its own local baseline — the median 100 of the
window preceding row 1.  The code compares against the confirming row's
baseline (200) instead of the flagged row's own baseline. -/
theorem anomaly_own_baseline_direction_cex :
    (flagGroup 20 60 1 2 [100, 200, 300, 400]).getD 1 ⟨false, none⟩ =
      ⟨true, some Dir.decrease⟩ ∧
      median (histWindow [100, 200, 300, 400] 1 1) = 100 ∧
      ((100 : ℚ) < [100, 200, 300, 400].getD 1 0) := by
  have e1 : flagGroup 20 60 1 2 [100, 200, 300, 400] =
      [⟨false, none⟩, ⟨true, some Dir.decrease⟩, ⟨true, some Dir.increase⟩,
       ⟨true, some Dir.increase⟩] := by
    norm_num [flagGroup, stepAt, flagRange, flagOne, histWindow, median, sortQ,
      sortS, insertS, List.range_succ, abs, max_def, List.getD,
      List.replicate_succ, List.set]
  refine ⟨by rw [e1]; rfl, ?_, by norm_num [List.getD]⟩
  norm_num [median, histWindow, sortQ, sortS, insertS, List.getD]

/-- C2 amended: when a confirmation window is flagged at row `i`, every newly
flagged row `j` of the window receives its direction from the comparison of
its own usage with the baseline OF THE CONFIRMING ROW `i` (the median of the
`window` rows preceding `i`), not with row `j`'s own local baseline. -/
theorem anomaly_direction_from_confirming_row (pthr athr : ℚ)
    (window shift : ℕ) (us : List ℚ) (st : ScanState) (i : ℕ)
    (hne : (histWindow us window i).isEmpty = false)
    (hb : median (histWindow us window i) ≠ 0)
    (hc1 : |(us.getD i 0 - median (histWindow us window i)) /
      median (histWindow us window i)| * 100 ≥ pthr)
    (hc2 : |us.getD i 0 - median (histWindow us window i)| ≥ athr)
    (hsh : st.consec + 1 ≥ shift) (j : ℕ) (hj1 : i + 1 - shift ≤ j)
    (hj2 : j ≤ i) (hj3 : j < st.anns.length)
    (hun : (st.anns.getD j ⟨false, none⟩).anomaly = false) :
    ((stepAt pthr athr window shift us st i).anns).getD j ⟨false, none⟩ =
      ⟨true, some (if us.getD j 0 > median (histWindow us window i)
        then Dir.increase else Dir.decrease)⟩ := by
  rw [stepAt_candidate pthr athr window shift us st i hne hb hc1 hc2, if_pos hsh]
  exact flagRange_getD_of_unflagged us _ j _ _ _ st.anns hj1 (by omega) hj3 hun

theorem anomaly_direction_from_confirming_row_w :
    ((stepAt 20 60 1 2 [100, 200, 300, 400]
        ⟨List.replicate 4 ⟨false, none⟩, 1⟩ 2).anns).getD 1 ⟨false, none⟩ =
      ⟨true, some (if [100, 200, 300, 400].getD 1 0 >
          median (histWindow [100, 200, 300, 400] 1 2)
        then Dir.increase else Dir.decrease)⟩ :=
  anomaly_direction_from_confirming_row 20 60 1 2 [100, 200, 300, 400]
    ⟨List.replicate 4 ⟨false, none⟩, 1⟩ 2
    (by norm_num [histWindow])
    (by norm_num [median, histWindow, sortQ, sortS, insertS, List.getD])
    (by norm_num [median, histWindow, sortQ, sortS, insertS, List.getD, abs, max_def])
    (by norm_num [median, histWindow, sortQ, sortS, insertS, List.getD, abs, max_def])
    (by norm_num) 1 (by norm_num) (by norm_num) (by norm_num)
    (by norm_num [List.getD, List.replicate_succ, List.set])

theorem flagOne_invariant (us : List ℚ) (b : ℚ) (j : ℕ) (anns : List Ann)
    (h : ∀ a ∈ anns, a.anomaly = a.dir.isSome) :
    ∀ a ∈ flagOne us b j anns, a.anomaly = a.dir.isSome := by
  unfold flagOne
  split
  · exact h
  · intro a ha
    rcases List.mem_or_eq_of_mem_set ha with ha2 | rfl
    · exact h a ha2
    · rfl

theorem flagRange_invariant (us : List ℚ) (b : ℚ) :
    ∀ (n lo : ℕ) (anns : List Ann),
      (∀ a ∈ anns, a.anomaly = a.dir.isSome) →
      ∀ a ∈ flagRange us b lo n anns, a.anomaly = a.dir.isSome
  | 0, _, _, h => h
  | n + 1, lo, anns, h => by
    rw [flagRange]
    exact flagRange_invariant us b n (lo + 1) (flagOne us b lo anns)
      (flagOne_invariant us b lo anns h)

theorem stepAt_invariant (pthr athr : ℚ) (window shift : ℕ) (us : List ℚ)
    (st : ScanState) (i : ℕ)
    (h : ∀ a ∈ st.anns, a.anomaly = a.dir.isSome) :
    ∀ a ∈ (stepAt pthr athr window shift us st i).anns,
      a.anomaly = a.dir.isSome := by
  simp only [stepAt]
  split_ifs
  · exact h
  · exact flagRange_invariant us _ _ _ st.anns h
  · exact h
  · exact h
  · exact h

theorem foldl_stepAt_invariant (pthr athr : ℚ) (window shift : ℕ)
    (us : List ℚ) :
    ∀ (l : List ℕ) (st : ScanState),
      (∀ a ∈ st.anns, a.anomaly = a.dir.isSome) →
      ∀ a ∈ (l.foldl (stepAt pthr athr window shift us) st).anns,
        a.anomaly = a.dir.isSome
  | [], _, h => h
  | x :: xs, st, h =>
    foldl_stepAt_invariant pthr athr window shift us xs
      (stepAt pthr athr window shift us st x)
      (stepAt_invariant pthr athr window shift us st x h)

/-- C10: after the detector runs, every row of the annotated table satisfies
"anomaly is true iff the direction is increase or decrease, and anomaly is
false iff the direction is None": a flag is never set without a direction and
a direction never set without a flag. -/
theorem anomaly_flag_iff_direction (pthr athr : ℚ) (window shift : ℕ)
    (groups : List (List ℚ)) (g : List Ann) (a : Ann)
    (hg : g ∈ flag_anomalies pthr athr window shift groups) (ha : a ∈ g) :
    (a.anomaly = true ↔
      (a.dir = some Dir.increase ∨ a.dir = some Dir.decrease)) ∧
      (a.anomaly = false ↔ a.dir = none) := by
  obtain ⟨us, -, rfl⟩ := List.mem_map.mp hg
  have hA : a.anomaly = a.dir.isSome := by
    refine foldl_stepAt_invariant pthr athr window shift us _ _ ?_ a ha
    intro c hc
    rw [List.eq_of_mem_replicate hc]
    rfl
  rcases a with ⟨ab, ad⟩
  simp only at hA
  cases ab <;> rcases ad with _ | d
  · simp
  · simp at hA
  · simp at hA
  · cases d <;> simp

theorem anomaly_flag_iff_direction_w :
    ((Ann.mk false none).anomaly = true ↔
      ((Ann.mk false none).dir = some Dir.increase ∨
        (Ann.mk false none).dir = some Dir.decrease)) ∧
      ((Ann.mk false none).anomaly = false ↔ (Ann.mk false none).dir = none) :=
  anomaly_flag_iff_direction 20 60 1 2 [[0]] [⟨false, none⟩] ⟨false, none⟩
    (by norm_num [flag_anomalies, flagGroup, List.range_succ])
    (by norm_num)

end ExcelOps
